import Mathlib

/-!
Shallow embedding of the robust multi-source signal-fusion core of the
repository: `src/adaptive_spectral_kernel.py` (class `AdaptiveSpectralKernel`,
the batch fusion engine) and `src/temporal_kernel.py` (classes
`TemporalAdaptiveKernel` and `HybridKernel`, the temporal engine and the mode
arbiter).

Modelling conventions:
* Python floats are modelled by `ℝ` (exact real arithmetic), numpy 1-D arrays
  by `List ℝ`, and a 2-D numpy array by a rectangular `List (List ℝ)`.
* `raise ValueError` is modelled by `Except.error`.  The engines are embedded
  as pure state transformers, so an `error` result carries no successor
  state: "raised before any state mutation" is the statement that the
  function returns `error` (and hence no new state) for that input.
* `scipy.fft.fft`/`ifft` are embedded as the textbook discrete Fourier
  transform with an unnormalised forward transform and `1/T` inverse scaling,
  which is scipy's documented convention ('backward' norm).
-/

/-- The robust-center estimation method accepted by both kernels: the
`method` constructor argument, one of the strings 'median' and
'trimmed_mean'. -/
inductive Method where
| median : Method
| trimmed_mean : Method
deriving DecidableEq

/-- Ascending sort of a list of reals, as produced by `np.sort` on a 1-D
array (insertion sort; any comparison sort yields the same list). -/
noncomputable def npSort (l : List ℝ) : List ℝ :=
  List.insertionSort (fun a b => a ≤ b) l

/-- `np.median` of a 1-D array: sort ascending; for odd length take the
middle element, for even length the mean of the two middle elements.
(`np.median` of an empty array is NaN; the model returns 0 there, and no
claim evaluates the median of an empty list.) -/
noncomputable def npMedian (l : List ℝ) : ℝ :=
  let s := npSort l
  let n := l.length
  if n % 2 = 1 then s.getD (n / 2) 0
  else (s.getD (n / 2 - 1) 0 + s.getD (n / 2) 0) / 2

/-- Number of samples `T` of a batch: the row length of the rectangular 2-D
array (`signals.shape[1]`). -/
def nSamples (signals : List (List ℝ)) : ℕ :=
  (signals.headD []).length

/-- Column `t` of the 2-D array: one value per source. -/
def column (signals : List (List ℝ)) (t : ℕ) : List ℝ :=
  signals.map (fun s => s.getD t 0)

/-- `np.median(signals, axis=0)`: per-sample median across sources
(`AdaptiveSpectralKernel._robust_center_median` and the 'median' branch of
`TemporalAdaptiveKernel._robust_center`). -/
noncomputable def robustCenterMedian (signals : List (List ℝ)) : List ℝ :=
  (List.range (nSamples signals)).map (fun t => npMedian (column signals t))

/-- Trimmed mean of one column: sort, drop `trim_count` entries from each
end (the Python slice `sorted[trim_count:-trim_count]`), average the rest.
`trim_count = int(n * 0.2)` evaluated in IEEE double arithmetic equals the
integer division `n / 5`. -/
noncomputable def trimmedMeanCol (l : List ℝ) : ℝ :=
  let n := l.length
  let trim := n / 5
  let s := npSort l
  let kept := if 0 < trim then (s.drop trim).take (n - 2 * trim) else s
  kept.sum / (kept.length : ℝ)

/-- Trimmed-mean robust center (`_robust_center_trimmed_mean` with the
default `trim_ratio = 0.2`; `np.sort(signals, axis=0)` sorts each column). -/
noncomputable def robustCenterTrimmed (signals : List (List ℝ)) : List ℝ :=
  (List.range (nSamples signals)).map (fun t => trimmedMeanCol (column signals t))

/-- Robust-center dispatch on the configured method.  The batch kernel and
the temporal kernel implement this dispatch with identical bodies
(`AdaptiveSpectralKernel.fit` step 1 and
`TemporalAdaptiveKernel._robust_center`), so one definition embeds both. -/
noncomputable def robustCenter (m : Method) (signals : List (List ℝ)) : List ℝ :=
  match m with
  | Method.median => robustCenterMedian signals
  | Method.trimmed_mean => robustCenterTrimmed signals

/-- `np.linalg.norm(sig - center)`: the L2 norm of the elementwise
difference of two equal-length rows. -/
noncomputable def l2normDiff (x c : List ℝ) : ℝ :=
  Real.sqrt (List.zipWith (fun a b => (a - b) ^ 2) x c).sum

/-- `AdaptiveSpectralKernel._compute_distances`: one L2 distance from the
robust center per source. -/
noncomputable def computeDistances (signals : List (List ℝ)) (center : List ℝ) : List ℝ :=
  signals.map (fun s => l2normDiff s center)

/-- `AdaptiveSpectralKernel._compute_weights`: Gaussian kernel weights
`exp(-d²/(2τ²))` normalised to sum 1, with the `tau == 0` uniform fallback
`np.ones(n)/n`. -/
noncomputable def computeWeights (distances : List ℝ) (tau : ℝ) : List ℝ :=
  if tau = 0 then List.replicate distances.length (1 / (distances.length : ℝ))
  else
    let w := distances.map (fun d => Real.exp (-(d ^ 2) / (2 * tau ^ 2)))
    w.map (fun x => x / w.sum)

/-- The principal `T`-th root of unity `e^(2πi/T)`. -/
noncomputable def dftRoot (T : ℕ) : ℂ :=
  Complex.exp (2 * Real.pi * Complex.I / (T : ℂ))

/-- `scipy.fft.fft`: `X_k = Σ_m x_m e^(-2πi·mk/T)`; the twiddle factor is
written `(dftRoot T)⁻¹ ^ (m*k)`, which equals `e^(-2πi·mk/T)`. -/
noncomputable def dft (x : List ℂ) : List ℂ :=
  (List.range x.length).map
    (fun k => ∑ m ∈ Finset.range x.length, x.getD m 0 * (dftRoot x.length)⁻¹ ^ (m * k))

/-- `scipy.fft.ifft`: `x_j = (1/T) Σ_k X_k e^(2πi·jk/T)`. -/
noncomputable def idft (X : List ℂ) : List ℂ :=
  (List.range X.length).map
    (fun j => (∑ k ∈ Finset.range X.length, X.getD k 0 * dftRoot X.length ^ (j * k)) / (X.length : ℂ))

/-- `np.average(spectra, axis=0, weights=w)`: the weighted sum divided by
the sum of the weights, per frequency bin. -/
noncomputable def weightedAverage (spectra : List (List ℂ)) (w : List ℝ) : List ℂ :=
  (List.range (spectra.headD []).length).map
    (fun k => (∑ i ∈ Finset.range spectra.length,
        ((w.getD i 0 : ℝ) : ℂ) * (spectra.getD i []).getD k 0) / ((w.sum : ℝ) : ℂ))

/-- `_fft_fusion` (identical in both kernels): per-source FFT,
trust-weighted average spectrum, inverse FFT, real part. -/
noncomputable def fftFusion (signals : List (List ℝ)) (w : List ℝ) : List ℝ :=
  (idft (weightedAverage (signals.map (fun s => dft (s.map Complex.ofReal))) w)).map Complex.re

/-- Configuration of an `AdaptiveSpectralKernel` instance.  (The `last_tau`
and `last_weights` attributes are diagnostic caches that never influence a
later `fit` result and are not retained in the model.) -/
structure AdaptiveSpectralKernel where
  alpha : ℝ
  method : Method

/-- The rectangularity condition under which `np.array(signals)` yields a
2-D array, i.e. the `signals.ndim == 2` validation of `fit` passes. -/
def rect (signals : List (List ℝ)) : Prop :=
  ∀ s ∈ signals, s.length = nSamples signals

instance (signals : List (List ℝ)) : Decidable (rect signals) :=
  List.decidableBAll _ signals

/-- The adaptive bandwidth `tau = alpha * np.median(distances)` computed in
step 3 of `AdaptiveSpectralKernel.fit`. -/
noncomputable def batchTau (alpha : ℝ) (m : Method) (signals : List (List ℝ)) : ℝ :=
  alpha * npMedian (computeDistances signals (robustCenter m signals))

/-- `AdaptiveSpectralKernel.fit`: validation, robust center, distances,
adaptive tau, weights, FFT fusion.  Every non-rectangular input (including
the empty batch) makes `np.array` produce a non-2-D array and `fit` raise
`ValueError` before any computation; the model collapses the per-shape
messages into fixed strings since only the error/success distinction is
observable to the claims. -/
noncomputable def AdaptiveSpectralKernel.fit (k : AdaptiveSpectralKernel)
    (signals : List (List ℝ)) : Except String (List ℝ × List ℝ) :=
  if ¬ rect signals then Except.error "signals must be 2D array"
  else if signals.length < 2 then Except.error "Need at least 2 signals"
  else if nSamples signals < 2 then Except.error "Need at least 2 samples per signal"
  else
    let center := robustCenter k.method signals
    let distances := computeDistances signals center
    let tau := batchTau k.alpha k.method signals
    let weights := computeWeights distances tau
    Except.ok (fftFusion signals weights, weights)

/-- One drift-alert record appended by `TemporalAdaptiveKernel.update`
step 7. -/
structure DriftAlert where
  timestep : ℕ
  outlier_indices : List ℕ
  min_weight : ℝ
  weights : List ℝ

/-- Full state of a `TemporalAdaptiveKernel` instance: configuration plus
the retained temporal state and the monitoring attributes. -/
structure TemporalAdaptiveKernel where
  alpha : ℝ
  beta : ℝ
  lambda_jitter : ℝ
  method : Method
  drift_threshold : ℝ
  center_prev : Option (List ℝ)
  signals_prev : Option (List (List ℝ))
  last_tau : Option ℝ
  last_weights : Option (List ℝ)
  drift_alerts : List DriftAlert
  timestep : ℕ

/-- `TemporalAdaptiveKernel.__init__`: the freshly constructed state for a
given configuration (the constructor's range checks on `beta`,
`lambda_jitter` and `drift_threshold` reject a bad configuration before any
state exists). -/
def TemporalAdaptiveKernel.init (alpha beta lambda_jitter : ℝ) (method : Method)
    (drift_threshold : ℝ) : TemporalAdaptiveKernel :=
  ⟨alpha, beta, lambda_jitter, method, drift_threshold, none, none, none, none, [], 0⟩

/-- `_temporal_center`: exponential blending of the previous center with the
current batch's robust center; on the very first call (`center_prev is
None`) the batch robust center itself. -/
noncomputable def temporalCenter (beta : ℝ) (m : Method) (signals : List (List ℝ))
    (center_prev : Option (List ℝ)) : List ℝ :=
  match center_prev with
  | none => robustCenter m signals
  | some cp => List.zipWith (fun a b => beta * a + (1 - beta) * b) cp (robustCenter m signals)

/-- `_compute_temporal_distances`: squared spatial deviation plus
`lambda_jitter` times the squared per-source jitter; the jitter is zero on
the first call (`signals_prev is None`). -/
noncomputable def temporalDistances (lam : ℝ) (signals : List (List ℝ)) (center : List ℝ)
    (signals_prev : Option (List (List ℝ))) : List ℝ :=
  let spatial := signals.map (fun s => l2normDiff s center)
  let jitter : List ℝ :=
    match signals_prev with
    | none => signals.map (fun _ => 0)
    | some prev => (List.range signals.length).map
        (fun i => l2normDiff (signals.getD i []) (prev.getD i []))
  List.zipWith (fun s j => s ^ 2 + lam * j ^ 2) spatial jitter

/-- `TemporalAdaptiveKernel._compute_weights`: the distances are already
squared, so the Gaussian exponent is `-d/(2τ²)` without the extra squaring
of the batch variant; same `tau == 0` uniform fallback. -/
noncomputable def computeWeightsTemporal (distances : List ℝ) (tau : ℝ) : List ℝ :=
  if tau = 0 then List.replicate distances.length (1 / (distances.length : ℝ))
  else
    let w := distances.map (fun d => Real.exp (-d / (2 * tau ^ 2)))
    w.map (fun x => x / w.sum)

/-- `detect_drift`: some weight lies strictly below the drift threshold. -/
noncomputable def detectDrift (threshold : ℝ) (w : List ℝ) : Bool :=
  decide (∃ x ∈ w, x < threshold)

/-- `np.where(weights < threshold)[0]`: the offending indices. -/
noncomputable def outlierIndices (threshold : ℝ) (w : List ℝ) : List ℕ :=
  (List.range w.length).filter (fun i => decide (w.getD i 0 < threshold))

/-- `weights.min()` of a nonempty vector (0 for the empty vector, never
reached on validated input). -/
noncomputable def listMin (w : List ℝ) : ℝ :=
  match w with
  | [] => 0
  | a :: t => t.foldl (fun x y => min x y) a

/-- `TemporalAdaptiveKernel.update`: validation (note: unlike `fit`, there
is no minimum-sample-count check), temporal center, temporal distances,
`tau = alpha * np.median(np.sqrt(distances))`, weights, FFT fusion, state
update, drift check.  The alert is appended after the timestep increment,
so it records the incremented counter, exactly as in the source. -/
noncomputable def TemporalAdaptiveKernel.update (σ : TemporalAdaptiveKernel)
    (signals : List (List ℝ)) :
    Except String (TemporalAdaptiveKernel × (List ℝ × List ℝ)) :=
  if ¬ rect signals then Except.error "signals must be 2D"
  else if signals.length < 2 then Except.error "Need at least 2 signals"
  else
    let center := temporalCenter σ.beta σ.method signals σ.center_prev
    let distances := temporalDistances σ.lambda_jitter signals center σ.signals_prev
    let tau := σ.alpha * npMedian (distances.map Real.sqrt)
    let weights := computeWeightsTemporal distances tau
    let fused := fftFusion signals weights
    let t := σ.timestep + 1
    let alerts :=
      if detectDrift σ.drift_threshold weights then
        σ.drift_alerts ++
          [⟨t, outlierIndices σ.drift_threshold weights, listMin weights, weights⟩]
      else σ.drift_alerts
    Except.ok
      ({ σ with
          center_prev := some center
          signals_prev := some signals
          last_tau := some tau
          last_weights := some weights
          drift_alerts := alerts
          timestep := t }, (fused, weights))

/-- `TemporalAdaptiveKernel.reset`: clear the retained state and the alert
history, keep the configuration. -/
def TemporalAdaptiveKernel.reset (σ : TemporalAdaptiveKernel) : TemporalAdaptiveKernel :=
  { σ with
    center_prev := none
    signals_prev := none
    last_tau := none
    last_weights := none
    drift_alerts := []
    timestep := 0 }

/-- The arbiter's reported mode. -/
inductive Mode where
| batch : Mode
| streaming : Mode
deriving DecidableEq

/-- State of a `HybridKernel` instance: the two sub-kernels, the sliding
drift window, and the current mode. -/
structure HybridKernel where
  batch_kernel : AdaptiveSpectralKernel
  temporal_kernel : TemporalAdaptiveKernel
  drift_detection_window : ℕ
  mode : Mode
  recent_drifts : List Bool

/-- `HybridKernel.__init__`: a batch kernel with the given `alpha` (default
'median' method), a temporal kernel with the default method and drift
threshold 0.1, batch mode, empty drift window. -/
def HybridKernel.init (alpha beta lambda_jitter : ℝ) (drift_detection_window : ℕ) :
    HybridKernel :=
  ⟨⟨alpha, Method.median⟩,
   TemporalAdaptiveKernel.init alpha beta lambda_jitter Method.median 0.1,
   drift_detection_window, Mode.batch, []⟩

/-- `HybridKernel.update`: run the batch kernel, append "any batch weight
below 0.1" to the sliding window (popping the front beyond the window
length), compute the drift rate, and pick the surfaced output; the temporal
kernel is updated in both branches. -/
noncomputable def HybridKernel.update (σ : HybridKernel) (signals : List (List ℝ)) :
    Except String (HybridKernel × (List ℝ × List ℝ × Mode)) :=
  match σ.batch_kernel.fit signals with
  | Except.error e => Except.error e
  | Except.ok (fusedB, weightsB) =>
    let drifts0 := σ.recent_drifts ++ [decide (∃ x ∈ weightsB, x < 0.1)]
    let drifts := if σ.drift_detection_window < drifts0.length then drifts0.tail else drifts0
    let rate := (drifts.countP id : ℝ) / (drifts.length : ℝ)
    if 0.3 < rate then
      match σ.temporal_kernel.update signals with
      | Except.error e => Except.error e
      | Except.ok (τ, out) =>
        Except.ok ({ σ with
          temporal_kernel := τ
          mode := Mode.streaming
          recent_drifts := drifts }, (out.1, out.2, Mode.streaming))
    else
      match σ.temporal_kernel.update signals with
      | Except.error e => Except.error e
      | Except.ok (τ, _) =>
        Except.ok ({ σ with
          temporal_kernel := τ
          mode := Mode.batch
          recent_drifts := drifts }, (fusedB, weightsB, Mode.batch))

/-- Iterated `HybridKernel.update`, threading the state and discarding the
per-call outputs. -/
noncomputable def hybridRun (σ : HybridKernel) : List (List (List ℝ)) → Except String HybridKernel
| [] => Except.ok σ
| b :: bs =>
  match σ.update b with
  | Except.error e => Except.error e
  | Except.ok (σ', _) => hybridRun σ' bs

/-- A valid batch per the specification: at least 2 sources, at least 2
samples per source, all sources of equal length. -/
def batchValid (signals : List (List ℝ)) : Prop :=
  2 ≤ signals.length ∧ 2 ≤ nSamples signals ∧ rect signals

/-! General lemmas about the embedded primitives. -/

theorem npSort_sorted (l : List ℝ) : (npSort l).Sorted (fun a b => a ≤ b) :=
  List.sorted_insertionSort _ l

theorem npSort_perm (l : List ℝ) : List.Perm (npSort l) l :=
  List.perm_insertionSort _ l

theorem npSort_length (l : List ℝ) : (npSort l).length = l.length :=
  (npSort_perm l).length_eq

/-- Characterisation of `npSort` as the unique sorted rearrangement. -/
theorem npSort_eq_of_sorted (l m : List ℝ) (hp : List.Perm l m)
    (hs : m.Sorted (fun a b => a ≤ b)) : npSort l = m :=
  List.eq_of_perm_of_sorted ((npSort_perm l).trans hp) (npSort_sorted l) hs

theorem getD_map_zero (f : ℝ → ℝ) (hf : f 0 = 0) (l : List ℝ) (i : ℕ) :
    (l.map f).getD i 0 = f (l.getD i 0) := by
  by_cases h : i < l.length
  · have h2 : i < (l.map f).length := by simpa using h
    rw [List.getD_eq_getElem _ _ h2, List.getD_eq_getElem _ _ h]
    simp
  · rw [List.getD_eq_default _ _ (by simpa using not_lt.mp h),
      List.getD_eq_default _ _ (by simpa using not_lt.mp h)]
    exact hf.symm

theorem getD_map_zero_complex (f : ℂ → ℂ) (hf : f 0 = 0) (l : List ℂ) (i : ℕ) :
    (l.map f).getD i 0 = f (l.getD i 0) := by
  by_cases h : i < l.length
  · have h2 : i < (l.map f).length := by simpa using h
    rw [List.getD_eq_getElem _ _ h2, List.getD_eq_getElem _ _ h]
    simp
  · rw [List.getD_eq_default _ _ (by simpa using not_lt.mp h),
      List.getD_eq_default _ _ (by simpa using not_lt.mp h)]
    exact hf.symm

theorem getD_reverse (m : List ℝ) (i : ℕ) (h : i < m.length) :
    m.reverse.getD i 0 = m.getD (m.length - 1 - i) 0 := by
  have h2 : i < m.reverse.length := by simpa using h
  have h3 : m.length - 1 - i < m.length := by omega
  rw [List.getD_eq_getElem _ _ h2, List.getD_eq_getElem _ _ h3]
  exact List.getElem_reverse h2

theorem getD_replicate_real (n : ℕ) (a : ℝ) (i : ℕ) (h : i < n) :
    (List.replicate n a).getD i 0 = a := by
  rw [List.getD_eq_getElem _ _ (by simpa using h)]
  simp

/-- Sorting commutes with applying a monotone map. -/
theorem npSort_map_mono (f : ℝ → ℝ) (hf : ∀ a b, a ≤ b → f a ≤ f b) (l : List ℝ) :
    npSort (l.map f) = (npSort l).map f := by
  have h1 : List.Perm (npSort (l.map f)) ((npSort l).map f) :=
    (npSort_perm _).trans (((npSort_perm l).map f).symm)
  have h2 : ((npSort l).map f).Sorted (fun a b => a ≤ b) :=
    List.Pairwise.map f (fun a b hab => hf a b hab) (npSort_sorted l)
  exact List.eq_of_perm_of_sorted h1 (npSort_sorted _) h2

/-- Sorting an antitonically mapped list yields the reversed mapped sort. -/
theorem npSort_map_anti (f : ℝ → ℝ) (hf : ∀ a b, a ≤ b → f b ≤ f a) (l : List ℝ) :
    npSort (l.map f) = ((npSort l).map f).reverse := by
  have h1 : List.Perm (npSort (l.map f)) (((npSort l).map f).reverse) :=
    (npSort_perm _).trans
      ((((npSort_perm l).map f).symm).trans (((npSort l).map f).reverse_perm).symm)
  have h2 : (((npSort l).map f).reverse).Sorted (fun a b => a ≤ b) := by
    rw [List.Sorted, List.pairwise_reverse]
    exact List.Pairwise.map f (fun a b hab => hf a b hab) (npSort_sorted l)
  exact List.eq_of_perm_of_sorted h1 (npSort_sorted _) h2

theorem npMedian_replicate (n : ℕ) (hn : 0 < n) (a : ℝ) :
    npMedian (List.replicate n a) = a := by
  have hsor : (List.replicate n a).Sorted (fun x y => x ≤ y) := by
    clear hn
    induction n with
    | zero => simp
    | succ k ih =>
      rw [List.replicate_succ, List.sorted_cons]
      refine ⟨fun b hb => ?_, ih⟩
      rw [List.eq_of_mem_replicate hb]
  have hs : npSort (List.replicate n a) = List.replicate n a :=
    npSort_eq_of_sorted _ _ (List.Perm.refl _) hsor
  unfold npMedian
  rw [hs]
  simp only [List.length_replicate]
  have h1 : n / 2 < n := Nat.div_lt_self hn (by norm_num)
  have h2 : n / 2 - 1 < n := by omega
  rw [getD_replicate_real n a _ h1]
  by_cases hpar : n % 2 = 1
  · rw [if_pos hpar]
  · rw [if_neg hpar, getD_replicate_real n a _ h2]
    ring

/-- `npMedian` commutes with scaling by an arbitrary real constant. -/
theorem npMedian_scale (c : ℝ) (l : List ℝ) :
    npMedian (l.map (fun x => c * x)) = c * npMedian l := by
  rcases Nat.eq_zero_or_pos l.length with h0 | hpos
  · have : l = [] := List.length_eq_zero.mp h0
    subst this
    simp [npMedian, npSort]
  rcases le_total 0 c with hc | hc
  · have hs := npSort_map_mono (fun x => c * x)
      (fun a b hab => mul_le_mul_of_nonneg_left hab hc) l
    unfold npMedian
    rw [hs]
    simp only [List.length_map]
    rw [getD_map_zero (fun x => c * x) (by ring) _ _,
      getD_map_zero (fun x => c * x) (by ring) _ _]
    by_cases hpar : l.length % 2 = 1
    · rw [if_pos hpar, if_pos hpar]
    · rw [if_neg hpar, if_neg hpar]
      ring
  · have hs := npSort_map_anti (fun x => c * x)
      (fun a b hab => mul_le_mul_of_nonpos_left hab hc) l
    unfold npMedian
    rw [hs]
    simp only [List.length_map, List.length_reverse]
    have hlen : ((npSort l).map (fun x => c * x)).length = l.length := by
      simp [npSort_length]
    by_cases hpar : l.length % 2 = 1
    · rw [if_pos hpar, if_pos hpar]
      have hB : l.length / 2 < ((npSort l).map (fun x => c * x)).length := by
        rw [hlen]; omega
      rw [getD_reverse _ _ hB, hlen]
      have hidx : l.length - 1 - l.length / 2 = l.length / 2 := by omega
      rw [hidx, getD_map_zero (fun x => c * x) (by ring) _ _]
    · rw [if_neg hpar, if_neg hpar]
      have hA : l.length / 2 - 1 < ((npSort l).map (fun x => c * x)).length := by
        rw [hlen]; omega
      have hB : l.length / 2 < ((npSort l).map (fun x => c * x)).length := by
        rw [hlen]; omega
      rw [getD_reverse _ _ hA, getD_reverse _ _ hB, hlen]
      have hiA : l.length - 1 - (l.length / 2 - 1) = l.length / 2 := by omega
      have hiB : l.length - 1 - l.length / 2 = l.length / 2 - 1 := by omega
      rw [hiA, hiB, getD_map_zero (fun x => c * x) (by ring) _ _,
        getD_map_zero (fun x => c * x) (by ring) _ _]
      ring

/-- In a sorted list, a position below the count of elements `≤ y` holds a
value `≤ y`. -/
theorem sorted_getD_le (s : List ℝ) (hs : s.Sorted (fun a b => a ≤ b)) (y : ℝ) :
    ∀ i, i < s.countP (fun x => decide (x ≤ y)) → s.getD i 0 ≤ y := by
  induction s with
  | nil => intro i hi; rw [List.countP_nil] at hi; omega
  | cons a t ih =>
    intro i hi
    rw [List.sorted_cons] at hs
    by_cases hay : a ≤ y
    · cases i with
      | zero => simpa using hay
      | succ j =>
        rw [List.countP_cons] at hi
        simp only [hay, decide_eq_true_eq, if_pos] at hi
        have hj : j < t.countP (fun x => decide (x ≤ y)) := by
          by_cases hc : (decide (a ≤ y) : Bool) = true
          · omega
          · simp [hay] at hc
        simpa using ih hs.2 j hj
    · exfalso
      have ht0 : t.countP (fun x => decide (x ≤ y)) = 0 := by
        rw [List.countP_eq_zero]
        intro x hx
        have hax : a ≤ x := hs.1 x hx
        simp only [decide_eq_true_eq]
        intro hxy
        exact hay (le_trans hax hxy)
      rw [List.countP_cons, ht0] at hi
      simp [hay] at hi

/-- A nonneg list in which strictly more than half of the entries are zero
(witnessed by a permutation splitting off the zero block) has median zero. -/
theorem npMedian_eq_zero_of_majority (d : List ℝ) (hnn : ∀ x ∈ d, 0 ≤ x)
    (z r : List ℝ) (hperm : List.Perm d (z ++ r)) (hz : ∀ x ∈ z, x = 0)
    (hmaj : d.length < 2 * z.length) : npMedian d = 0 := by
  have hlen : d.length = z.length + r.length := by
    have := hperm.length_eq
    simpa using this
  have hcount : z.length ≤ (npSort d).countP (fun x => decide (x ≤ 0)) := by
    have h1 : (npSort d).countP (fun x => decide (x ≤ 0))
        = (z ++ r).countP (fun x => decide (x ≤ 0)) :=
      ((npSort_perm d).trans hperm).countP_eq _
    rw [h1, List.countP_append]
    have hzc : z.countP (fun x => decide (x ≤ 0)) = z.length := by
      rw [List.countP_eq_length]
      intro x hx
      simp [hz x hx]
    omega
  have hnpos : 0 < d.length := by omega
  have hslen : (npSort d).length = d.length := npSort_length d
  have hmem_nonneg : ∀ i, i < d.length → 0 ≤ (npSort d).getD i 0 := by
    intro i hi
    have hi2 : i < (npSort d).length := by omega
    rw [List.getD_eq_getElem _ _ hi2]
    exact hnn _ ((npSort_perm d).mem_iff.mp (List.getElem_mem hi2))
  have hmid : (npSort d).getD (d.length / 2) 0 = 0 := by
    have hlt : d.length / 2 < (npSort d).countP (fun x => decide (x ≤ 0)) := by omega
    exact le_antisymm (sorted_getD_le _ (npSort_sorted d) 0 _ hlt)
      (hmem_nonneg _ (by omega))
  have hmid2 : (npSort d).getD (d.length / 2 - 1) 0 = 0 := by
    have hlt : d.length / 2 - 1 < (npSort d).countP (fun x => decide (x ≤ 0)) := by omega
    exact le_antisymm (sorted_getD_le _ (npSort_sorted d) 0 _ hlt)
      (hmem_nonneg _ (by omega))
  unfold npMedian
  by_cases hpar : d.length % 2 = 1
  · simp only [if_pos hpar, hmid]
  · simp only [if_neg hpar, hmid, hmid2]
    norm_num

/-- If a nonneg list has median zero, so does its elementwise square root. -/
theorem npMedian_sqrt_eq_zero (d : List ℝ) (hnn : ∀ x ∈ d, 0 ≤ x)
    (hmed : npMedian d = 0) : npMedian (d.map Real.sqrt) = 0 := by
  rcases Nat.eq_zero_or_pos d.length with h0 | hpos
  · have : d = [] := List.length_eq_zero.mp h0
    subst this
    simp [npMedian, npSort]
  have hs := npSort_map_mono Real.sqrt (fun a b hab => Real.sqrt_le_sqrt hab) d
  have hslen : (npSort d).length = d.length := npSort_length d
  have hmem_nonneg : ∀ i, i < d.length → 0 ≤ (npSort d).getD i 0 := by
    intro i hi
    have hi2 : i < (npSort d).length := by omega
    rw [List.getD_eq_getElem _ _ hi2]
    exact hnn _ ((npSort_perm d).mem_iff.mp (List.getElem_mem hi2))
  unfold npMedian at hmed ⊢
  rw [hs]
  simp only [List.length_map]
  rw [getD_map_zero Real.sqrt Real.sqrt_zero _ _,
    getD_map_zero Real.sqrt Real.sqrt_zero _ _]
  by_cases hpar : d.length % 2 = 1
  · simp only [if_pos hpar] at hmed ⊢
    rw [hmed, Real.sqrt_zero]
  · simp only [if_neg hpar] at hmed ⊢
    have hA : 0 ≤ (npSort d).getD (d.length / 2 - 1) 0 := hmem_nonneg _ (by omega)
    have hB : 0 ≤ (npSort d).getD (d.length / 2) 0 := hmem_nonneg _ (by omega)
    have hsum : (npSort d).getD (d.length / 2 - 1) 0 + (npSort d).getD (d.length / 2) 0 = 0 := by
      linarith
    have hAB := (add_eq_zero_iff_of_nonneg hA hB).mp hsum
    rw [hAB.1, hAB.2, Real.sqrt_zero]
    norm_num

theorem sum_map_div (l : List ℝ) (c : ℝ) : (l.map (fun x => x / c)).sum = l.sum / c := by
  induction l with
  | nil => simp
  | cons a t ih => simp [ih, add_div]

theorem normalized_nonneg (w : List ℝ) (hw : ∀ x ∈ w, 0 < x) :
    ∀ x ∈ w.map (fun x => x / w.sum), 0 ≤ x := by
  intro x hx
  rcases List.mem_map.mp hx with ⟨a, ha, rfl⟩
  have hS : 0 < w.sum := List.sum_pos w hw (List.ne_nil_of_mem ha)
  exact div_nonneg (le_of_lt (hw a ha)) (le_of_lt hS)

theorem normalized_sum (w : List ℝ) (hw : ∀ x ∈ w, 0 < x) (hne : w ≠ []) :
    (w.map (fun x => x / w.sum)).sum = 1 := by
  rw [sum_map_div]
  exact div_self (ne_of_gt (List.sum_pos w hw hne))

theorem uniform_sum (n : ℕ) (hn : 0 < n) : (List.replicate n (1 / (n : ℝ))).sum = 1 := by
  rw [List.sum_replicate, nsmul_eq_mul]
  have : (n : ℝ) ≠ 0 := Nat.cast_ne_zero.mpr hn.ne'
  field_simp

theorem computeWeights_length (d : List ℝ) (τ : ℝ) :
    (computeWeights d τ).length = d.length := by
  unfold computeWeights
  by_cases h : τ = 0 <;> simp [h]

theorem computeWeights_nonneg (d : List ℝ) (τ : ℝ) :
    ∀ x ∈ computeWeights d τ, 0 ≤ x := by
  unfold computeWeights
  by_cases h : τ = 0
  · simp only [if_pos h]
    intro x hx
    rw [List.eq_of_mem_replicate hx]
    positivity
  · simp only [if_neg h]
    exact normalized_nonneg _ (by
      intro x hx
      rcases List.mem_map.mp hx with ⟨a, _, rfl⟩
      exact Real.exp_pos _)

theorem computeWeights_sum (d : List ℝ) (τ : ℝ) (hd : d ≠ []) :
    (computeWeights d τ).sum = 1 := by
  unfold computeWeights
  by_cases h : τ = 0
  · simp only [if_pos h]
    exact uniform_sum _ (List.length_pos.mpr hd)
  · simp only [if_neg h]
    refine normalized_sum _ (by
      intro x hx
      rcases List.mem_map.mp hx with ⟨a, _, rfl⟩
      exact Real.exp_pos _) (by simpa using hd)

theorem computeWeightsTemporal_length (d : List ℝ) (τ : ℝ) :
    (computeWeightsTemporal d τ).length = d.length := by
  unfold computeWeightsTemporal
  by_cases h : τ = 0 <;> simp [h]

theorem computeWeightsTemporal_nonneg (d : List ℝ) (τ : ℝ) :
    ∀ x ∈ computeWeightsTemporal d τ, 0 ≤ x := by
  unfold computeWeightsTemporal
  by_cases h : τ = 0
  · simp only [if_pos h]
    intro x hx
    rw [List.eq_of_mem_replicate hx]
    positivity
  · simp only [if_neg h]
    exact normalized_nonneg _ (by
      intro x hx
      rcases List.mem_map.mp hx with ⟨a, _, rfl⟩
      exact Real.exp_pos _)

theorem computeWeightsTemporal_sum (d : List ℝ) (τ : ℝ) (hd : d ≠ []) :
    (computeWeightsTemporal d τ).sum = 1 := by
  unfold computeWeightsTemporal
  by_cases h : τ = 0
  · simp only [if_pos h]
    exact uniform_sum _ (List.length_pos.mpr hd)
  · simp only [if_neg h]
    refine normalized_sum _ (by
      intro x hx
      rcases List.mem_map.mp hx with ⟨a, _, rfl⟩
      exact Real.exp_pos _) (by simpa using hd)

theorem range_map_getD_real (l : List ℝ) :
    (List.range l.length).map (fun i => l.getD i 0) = l := by
  apply List.ext_getElem (by simp)
  intro i h1 h2
  have hb : i < l.length := h2
  simp only [List.getElem_map, List.getElem_range]
  exact List.getD_eq_getElem _ _ hb

theorem range_map_getD_complex (l : List ℂ) :
    (List.range l.length).map (fun i => l.getD i 0) = l := by
  apply List.ext_getElem (by simp)
  intro i h1 h2
  have hb : i < l.length := h2
  simp only [List.getElem_map, List.getElem_range]
  exact List.getD_eq_getElem _ _ hb

theorem dftRoot_isPrimitive (T : ℕ) (hT : 0 < T) : IsPrimitiveRoot (dftRoot T) T :=
  Complex.isPrimitiveRoot_exp T hT.ne'

/-- Orthogonality of the DFT characters: summing `e^(2πi·jk/T)·e^(-2πi·mk/T)`
over one period gives `T` on the diagonal and 0 off it. -/
theorem dftRoot_orth (T : ℕ) (hT : 0 < T) (j m : ℕ) (hj : j < T) (hm : m < T) :
    ∑ k ∈ Finset.range T, dftRoot T ^ (j * k) * ((dftRoot T)⁻¹) ^ (m * k)
      = if j = m then (T : ℂ) else 0 := by
  have hζ : IsPrimitiveRoot (dftRoot T) T := dftRoot_isPrimitive T hT
  have hζ0 : dftRoot T ≠ 0 := hζ.ne_zero hT.ne'
  have hterm : ∀ k, dftRoot T ^ (j * k) * ((dftRoot T)⁻¹) ^ (m * k)
      = (dftRoot T ^ j * (dftRoot T ^ m)⁻¹) ^ k := by
    intro k
    rw [pow_mul, pow_mul, inv_pow, ← inv_pow, ← mul_pow]
  rw [Finset.sum_congr rfl (fun k _ => hterm k)]
  by_cases hjm : j = m
  · subst hjm
    have hu : dftRoot T ^ j * (dftRoot T ^ j)⁻¹ = 1 := mul_inv_cancel₀ (pow_ne_zero _ hζ0)
    rw [hu, if_pos rfl]
    simp
  · have hne : dftRoot T ^ j ≠ dftRoot T ^ m := by
      intro h
      exact hjm (hζ.pow_inj hj hm h)
    have hu1 : dftRoot T ^ j * (dftRoot T ^ m)⁻¹ ≠ 1 := fun h =>
      hne ((mul_inv_eq_one₀ (pow_ne_zero _ hζ0)).mp h)
    have h1 : (dftRoot T ^ j) ^ T = 1 := by
      rw [← pow_mul, mul_comm, pow_mul, hζ.pow_eq_one, one_pow]
    have h2 : ((dftRoot T ^ m)⁻¹) ^ T = 1 := by
      rw [inv_pow, ← pow_mul, mul_comm, pow_mul, hζ.pow_eq_one, one_pow, inv_one]
    have huT : (dftRoot T ^ j * (dftRoot T ^ m)⁻¹) ^ T = 1 := by
      rw [mul_pow, h1, h2, one_mul]
    rw [geom_sum_eq hu1, huT, if_neg hjm]
    simp

/-- The embedded inverse DFT inverts the embedded DFT exactly. -/
theorem idft_dft (x : List ℂ) : idft (dft x) = x := by
  rcases Nat.eq_zero_or_pos x.length with h0 | hT
  · have hx : x = [] := List.length_eq_zero.mp h0
    subst hx
    simp [dft, idft]
  have hdlen : (dft x).length = x.length := by simp [dft]
  have hTne : (x.length : ℂ) ≠ 0 := Nat.cast_ne_zero.mpr hT.ne'
  have hXk : ∀ k, k < x.length → (dft x).getD k 0
      = ∑ m ∈ Finset.range x.length, x.getD m 0 * (dftRoot x.length)⁻¹ ^ (m * k) := by
    intro k hk
    have hk2 : k < (dft x).length := by omega
    rw [List.getD_eq_getElem _ _ hk2]
    simp [dft]
  apply List.ext_getElem (by simp [idft, hdlen])
  intro j hj1 hj2
  have hj : j < x.length := hj2
  have hj1b : j < (List.range (dft x).length).length := by simpa [hdlen] using hj
  simp only [idft, List.getElem_map, List.getElem_range, hdlen]
  have hnum : (∑ k ∈ Finset.range x.length, (dft x).getD k 0 * dftRoot x.length ^ (j * k))
      = x.getD j 0 * (x.length : ℂ) := by
    calc
      ∑ k ∈ Finset.range x.length, (dft x).getD k 0 * dftRoot x.length ^ (j * k)
          = ∑ k ∈ Finset.range x.length, ∑ m ∈ Finset.range x.length,
              x.getD m 0 * (dftRoot x.length ^ (j * k) * (dftRoot x.length)⁻¹ ^ (m * k)) := by
            refine Finset.sum_congr rfl (fun k hk => ?_)
            rw [hXk k (Finset.mem_range.mp hk), Finset.sum_mul]
            refine Finset.sum_congr rfl (fun m _ => ?_)
            ring
      _ = ∑ m ∈ Finset.range x.length, ∑ k ∈ Finset.range x.length,
              x.getD m 0 * (dftRoot x.length ^ (j * k) * (dftRoot x.length)⁻¹ ^ (m * k)) :=
            Finset.sum_comm
      _ = ∑ m ∈ Finset.range x.length,
              x.getD m 0 * (if j = m then (x.length : ℂ) else 0) := by
            refine Finset.sum_congr rfl (fun m hm => ?_)
            rw [← Finset.mul_sum, dftRoot_orth x.length hT j m hj (Finset.mem_range.mp hm)]
      _ = x.getD j 0 * (x.length : ℂ) := by
            rw [Finset.sum_congr rfl (fun m _ => mul_ite (j = m) (x.getD m 0) _ 0)]
            simp only [mul_zero]
            rw [Finset.sum_ite_eq (Finset.range x.length) j (fun m => x.getD m 0 * (x.length : ℂ))]
            simp [Finset.mem_range.mpr hj]
  rw [hnum, mul_div_assoc, div_self hTne, mul_one]
  exact List.getD_eq_getElem _ _ hj

theorem computeDistances_length (sig : List (List ℝ)) (c : List ℝ) :
    (computeDistances sig c).length = sig.length := by
  simp [computeDistances]

theorem computeDistances_nonneg (sig : List (List ℝ)) (c : List ℝ) :
    ∀ x ∈ computeDistances sig c, 0 ≤ x := by
  intro x hx
  rcases List.mem_map.mp hx with ⟨s, _, rfl⟩
  exact Real.sqrt_nonneg _

/-- On a valid batch, `fit` succeeds and returns exactly the composition of
the embedded pipeline stages. -/
theorem fit_ok (k : AdaptiveSpectralKernel) (sig : List (List ℝ)) (hv : batchValid sig) :
    k.fit sig = Except.ok
      (fftFusion sig (computeWeights (computeDistances sig (robustCenter k.method sig))
          (batchTau k.alpha k.method sig)),
        computeWeights (computeDistances sig (robustCenter k.method sig))
          (batchTau k.alpha k.method sig)) := by
  obtain ⟨h1, h2, h3⟩ := hv
  unfold AdaptiveSpectralKernel.fit
  rw [if_neg (not_not_intro h3), if_neg (by omega), if_neg (by omega)]

/-- On a rectangular batch with at least two sources, `update` succeeds; the
returned weights, new retained center and incremented timestep are the
embedded pipeline values. -/
theorem update_ok (σ : TemporalAdaptiveKernel) (sig : List (List ℝ))
    (h1 : rect sig) (h2 : 2 ≤ sig.length) :
    ∃ σ' fused w, σ.update sig = Except.ok (σ', (fused, w)) ∧
      w = computeWeightsTemporal
            (temporalDistances σ.lambda_jitter sig
              (temporalCenter σ.beta σ.method sig σ.center_prev) σ.signals_prev)
            (σ.alpha * npMedian ((temporalDistances σ.lambda_jitter sig
              (temporalCenter σ.beta σ.method sig σ.center_prev) σ.signals_prev).map Real.sqrt)) ∧
      σ'.center_prev = some (temporalCenter σ.beta σ.method sig σ.center_prev) ∧
      σ'.timestep = σ.timestep + 1 ∧
      fused = fftFusion sig w := by
  unfold TemporalAdaptiveKernel.update
  rw [if_neg (not_not_intro h1), if_neg (by omega)]
  exact ⟨_, _, _, rfl, rfl, rfl, rfl, rfl⟩

theorem temporalDistances_length (lam : ℝ) (sig : List (List ℝ)) (center : List ℝ)
    (sp : Option (List (List ℝ))) :
    (temporalDistances lam sig center sp).length = sig.length := by
  unfold temporalDistances
  cases sp <;> simp

/-- C1: for every valid batch (at least 2 sources, at least 2 samples, equal
lengths), the weight vector returned by `AdaptiveSpectralKernel.fit` and by
`TemporalAdaptiveKernel.update` has one entry per source, every entry is
non-negative, and the entries sum to 1 (exactly, in real arithmetic). -/
theorem C1_weights_normalized (k : AdaptiveSpectralKernel) (σ : TemporalAdaptiveKernel)
    (sig : List (List ℝ)) (hv : batchValid sig) :
    (∃ fused w, k.fit sig = Except.ok (fused, w) ∧
      w.length = sig.length ∧ (∀ x ∈ w, 0 ≤ x) ∧ w.sum = 1) ∧
    (∃ σ' fused w, σ.update sig = Except.ok (σ', (fused, w)) ∧
      w.length = sig.length ∧ (∀ x ∈ w, 0 ≤ x) ∧ w.sum = 1) := by
  have hlen2 : 2 ≤ sig.length := hv.1
  have hd : computeDistances sig (robustCenter k.method sig) ≠ [] := by
    intro h
    have hl := computeDistances_length sig (robustCenter k.method sig)
    rw [h] at hl
    simp at hl
    omega
  constructor
  · refine ⟨_, _, fit_ok k sig hv, ?_, computeWeights_nonneg _ _, computeWeights_sum _ _ hd⟩
    rw [computeWeights_length, computeDistances_length]
  · obtain ⟨σ', fused, w, hupd, hw, _, _, _⟩ := update_ok σ sig hv.2.2 hlen2
    have hdT : temporalDistances σ.lambda_jitter sig
        (temporalCenter σ.beta σ.method sig σ.center_prev) σ.signals_prev ≠ [] := by
      intro h
      have hl := temporalDistances_length σ.lambda_jitter sig
        (temporalCenter σ.beta σ.method sig σ.center_prev) σ.signals_prev
      rw [h] at hl
      simp at hl
      omega
    refine ⟨σ', fused, w, hupd, ?_, ?_, ?_⟩
    · rw [hw, computeWeightsTemporal_length, temporalDistances_length]
    · rw [hw]
      exact computeWeightsTemporal_nonneg _ _
    · rw [hw]
      exact computeWeightsTemporal_sum _ _ hdT

/-- Witness for C1 at a concrete valid batch. -/
theorem C1_weights_normalized_witness :
    batchValid [[(0 : ℝ), 0], [0, 0]] ∧
    ((∃ fused w, AdaptiveSpectralKernel.fit ⟨3 / 2, Method.median⟩ [[(0 : ℝ), 0], [0, 0]]
        = Except.ok (fused, w) ∧
      w.length = ([[(0 : ℝ), 0], [0, 0]] : List (List ℝ)).length ∧ (∀ x ∈ w, 0 ≤ x) ∧ w.sum = 1) ∧
    (∃ σ' fused w, (TemporalAdaptiveKernel.init (3 / 2) 0.95 0.5 Method.median 0.1).update
        [[(0 : ℝ), 0], [0, 0]] = Except.ok (σ', (fused, w)) ∧
      w.length = ([[(0 : ℝ), 0], [0, 0]] : List (List ℝ)).length ∧ (∀ x ∈ w, 0 ≤ x) ∧ w.sum = 1)) := by
  have hv : batchValid [[(0 : ℝ), 0], [0, 0]] := by
    refine ⟨by norm_num, by norm_num [nSamples], ?_⟩
    intro s hs
    fin_cases hs <;> rfl
  exact ⟨hv, C1_weights_normalized ⟨3 / 2, Method.median⟩
    (TemporalAdaptiveKernel.init (3 / 2) 0.95 0.5 Method.median 0.1) _ hv⟩

/-- C8: after `reset()` the retained state is cleared (no previous center,
no previous batch, no cached tau/weights, empty alert history, timestep 0)
while the configuration fields keep their exact values. -/
theorem C8_reset_clears_state_keeps_config (σ : TemporalAdaptiveKernel) :
    σ.reset.center_prev = none ∧ σ.reset.signals_prev = none ∧
    σ.reset.last_tau = none ∧ σ.reset.last_weights = none ∧
    σ.reset.drift_alerts = [] ∧ σ.reset.timestep = 0 ∧
    σ.reset.alpha = σ.alpha ∧ σ.reset.beta = σ.beta ∧
    σ.reset.lambda_jitter = σ.lambda_jitter ∧ σ.reset.method = σ.method ∧
    σ.reset.drift_threshold = σ.drift_threshold :=
  ⟨rfl, rfl, rfl, rfl, rfl, rfl, rfl, rfl, rfl, rfl, rfl⟩

/-- C4: with method 'median' the retained robust center satisfies the
recurrence `center_t = beta * center_(t-1) + (1-beta) * median(batch_t)`,
with `center_0 = median(batch_0)` on the first update after construction or
reset (both of which have no previous center). -/
theorem C4_center_recurrence (σ : TemporalAdaptiveKernel) (sig : List (List ℝ))
    (hm : σ.method = Method.median) (h1 : rect sig) (h2 : 2 ≤ sig.length) :
    (∀ α β lj dt, (TemporalAdaptiveKernel.init α β lj Method.median dt).center_prev = none) ∧
    (∀ τ : TemporalAdaptiveKernel, τ.reset.center_prev = none) ∧
    ∃ σ' out, σ.update sig = Except.ok (σ', out) ∧
      σ'.center_prev = some (match σ.center_prev with
        | none => robustCenterMedian sig
        | some c => List.zipWith (fun a b => σ.beta * a + (1 - σ.beta) * b) c
            (robustCenterMedian sig)) := by
  refine ⟨fun α β lj dt => rfl, fun τ => rfl, ?_⟩
  obtain ⟨σ', fused, w, hupd, _, hc, _, _⟩ := update_ok σ sig h1 h2
  refine ⟨σ', (fused, w), hupd, ?_⟩
  rw [hc]
  unfold temporalCenter
  rw [hm]
  cases σ.center_prev <;> rfl

/-- Witness for C4 at a concrete first update. -/
theorem C4_center_recurrence_witness :
    (∀ α β lj dt, (TemporalAdaptiveKernel.init α β lj Method.median dt).center_prev = none) ∧
    (∀ τ : TemporalAdaptiveKernel, τ.reset.center_prev = none) ∧
    ∃ σ' out, (TemporalAdaptiveKernel.init (3 / 2) 0.95 0.5 Method.median 0.1).update
        [[(0 : ℝ), 1], [2, 3]] = Except.ok (σ', out) ∧
      σ'.center_prev = some
        (match (TemporalAdaptiveKernel.init (3 / 2) 0.95 0.5 Method.median 0.1).center_prev with
          | none => robustCenterMedian [[(0 : ℝ), 1], [2, 3]]
          | some c => List.zipWith
              (fun a b => (TemporalAdaptiveKernel.init (3 / 2) 0.95 0.5 Method.median 0.1).beta * a
                + (1 - (TemporalAdaptiveKernel.init (3 / 2) 0.95 0.5 Method.median 0.1).beta) * b) c
              (robustCenterMedian [[(0 : ℝ), 1], [2, 3]])) :=
  C4_center_recurrence (TemporalAdaptiveKernel.init (3 / 2) 0.95 0.5 Method.median 0.1)
    [[(0 : ℝ), 1], [2, 3]] rfl (by intro s hs; fin_cases hs <;> rfl) (by norm_num)

/-- C2 counterexample: the claim also asserts that a batch with fewer than 2
samples per source makes `TemporalAdaptiveKernel.update` raise with no state
change; in fact `update` never checks the sample count, and on the 1-sample
batch `[[1], [2]]` it succeeds and mutates the state (timestep 0 → 1). -/
theorem C2_counterexample :
    ((TemporalAdaptiveKernel.init (3 / 2) 0.95 0.5 Method.median 0.1).update
        [[(1 : ℝ)], [2]]).map (fun p => p.1.timestep) = Except.ok 1 := by
  obtain ⟨σ', fused, w, hupd, _, _, ht, _⟩ :=
    update_ok (TemporalAdaptiveKernel.init (3 / 2) 0.95 0.5 Method.median 0.1)
      [[(1 : ℝ)], [2]] (by intro s hs; fin_cases hs <;> rfl) (by norm_num)
  rw [hupd]
  show Except.ok (σ'.timestep) = Except.ok 1
  rw [ht]
  rfl

/-- C2 amended: `fit` raises on all three invalid-input conditions before
any computation (an `error` result carries no state); `update` raises before
any state mutation on a non-rectangular batch or on fewer than 2 sources,
but performs no sample-count validation (see the counterexample for the
dropped `T < 2` case). -/
theorem C2_amended_validation (k : AdaptiveSpectralKernel) (σ : TemporalAdaptiveKernel)
    (sig : List (List ℝ)) (hinv : ¬ rect sig ∨ sig.length < 2 ∨ nSamples sig < 2) :
    (∃ e, k.fit sig = Except.error e) ∧
    ((¬ rect sig ∨ sig.length < 2) → ∃ e, σ.update sig = Except.error e) := by
  constructor
  · unfold AdaptiveSpectralKernel.fit
    by_cases hr : rect sig
    · rw [if_neg (not_not_intro hr)]
      by_cases h2 : sig.length < 2
      · rw [if_pos h2]
        exact ⟨_, rfl⟩
      · have h3 : nSamples sig < 2 := by tauto
        rw [if_neg h2, if_pos h3]
        exact ⟨_, rfl⟩
    · rw [if_pos hr]
      exact ⟨_, rfl⟩
  · intro h
    unfold TemporalAdaptiveKernel.update
    by_cases hr : rect sig
    · have h2 : sig.length < 2 := by tauto
      rw [if_neg (not_not_intro hr), if_pos h2]
      exact ⟨_, rfl⟩
    · rw [if_pos hr]
      exact ⟨_, rfl⟩

/-- Witness for the amended C2 on the concrete single-source batch. -/
theorem C2_amended_validation_witness :
    (∃ e, AdaptiveSpectralKernel.fit ⟨3 / 2, Method.median⟩ [[(1 : ℝ), 2]] = Except.error e) ∧
    ((¬ rect [[(1 : ℝ), 2]] ∨ ([[(1 : ℝ), 2]] : List (List ℝ)).length < 2) →
      ∃ e, (TemporalAdaptiveKernel.init (3 / 2) 0.95 0.5 Method.median 0.1).update
        [[(1 : ℝ), 2]] = Except.error e) :=
  C2_amended_validation ⟨3 / 2, Method.median⟩
    (TemporalAdaptiveKernel.init (3 / 2) 0.95 0.5 Method.median 0.1)
    [[(1 : ℝ), 2]] (Or.inr (Or.inl (by norm_num)))

theorem hybrid_update_ok (σ : HybridKernel) (sig : List (List ℝ)) (hv : batchValid sig) :
    ∃ σ' out, σ.update sig = Except.ok (σ', out) ∧
      σ'.temporal_kernel.timestep = σ.temporal_kernel.timestep + 1 := by
  obtain ⟨σT, fusedT, wT, hupdT, _, _, htT, _⟩ :=
    update_ok σ.temporal_kernel sig hv.2.2 hv.1
  unfold HybridKernel.update
  rw [fit_ok σ.batch_kernel sig hv]
  dsimp only
  split <;> split <;> (rw [hupdT]; exact ⟨_, _, rfl, htT⟩)

theorem hybridRun_advances (batches : List (List (List ℝ))) :
    ∀ σ : HybridKernel, (∀ b ∈ batches, batchValid b) →
    ∃ σ', hybridRun σ batches = Except.ok σ' ∧
      σ'.temporal_kernel.timestep = σ.temporal_kernel.timestep + batches.length := by
  induction batches with
  | nil =>
    intro σ _
    exact ⟨σ, rfl, by simp⟩
  | cons b bs ih =>
    intro σ hb
    obtain ⟨σ1, out, hupd, ht⟩ := hybrid_update_ok σ b (hb b (by simp))
    obtain ⟨σ', hrun, ht2⟩ := ih σ1 (fun x hx => hb x (by simp [hx]))
    refine ⟨σ', ?_, by simp only [List.length_cons]; omega⟩
    unfold hybridRun
    rw [hupd]
    exact hrun

/-- C7: every successful `HybridKernel.update` call advances the internal
temporal kernel exactly once, in both the batch and the streaming branch;
consequently after `k` arbiter calls on valid batches from a fresh hybrid
kernel the temporal timestep equals `k`. -/
theorem C7_temporal_advances_every_call (σ : HybridKernel) (sig : List (List ℝ))
    (hv : batchValid sig) :
    (∃ σ' out, σ.update sig = Except.ok (σ', out) ∧
      σ'.temporal_kernel.timestep = σ.temporal_kernel.timestep + 1) ∧
    (∀ batches : List (List (List ℝ)), (∀ b ∈ batches, batchValid b) →
      ∀ α β lj win, ∃ σe, hybridRun (HybridKernel.init α β lj win) batches = Except.ok σe ∧
        σe.temporal_kernel.timestep = batches.length) := by
  refine ⟨hybrid_update_ok σ sig hv, fun batches hb α β lj win => ?_⟩
  obtain ⟨σe, hrun, ht⟩ := hybridRun_advances batches (HybridKernel.init α β lj win) hb
  exact ⟨σe, hrun, by simpa [HybridKernel.init, TemporalAdaptiveKernel.init] using ht⟩

/-- Witness for C7 at a concrete hybrid kernel and valid batch. -/
theorem C7_temporal_advances_every_call_witness :
    (∃ σ' out, (HybridKernel.init (3 / 2) 0.95 0.5 5).update [[(0 : ℝ), 0], [0, 0]]
        = Except.ok (σ', out) ∧
      σ'.temporal_kernel.timestep
        = (HybridKernel.init (3 / 2) 0.95 0.5 5).temporal_kernel.timestep + 1) ∧
    (∀ batches : List (List (List ℝ)), (∀ b ∈ batches, batchValid b) →
      ∀ α β lj win, ∃ σe, hybridRun (HybridKernel.init α β lj win) batches = Except.ok σe ∧
        σe.temporal_kernel.timestep = batches.length) :=
  C7_temporal_advances_every_call (HybridKernel.init (3 / 2) 0.95 0.5 5)
    [[(0 : ℝ), 0], [0, 0]]
    ⟨by norm_num, by norm_num [nSamples], by intro s hs; fin_cases hs <;> rfl⟩

theorem npMedian_four_one (x y : ℝ) : npMedian [x, x, x, x, y] = x := by
  rcases le_total x y with hxy | hyx
  · have hsort : npSort [x, x, x, x, y] = [x, x, x, x, y] := by
      refine npSort_eq_of_sorted _ _ (List.Perm.refl _) ?_
      simp [List.sorted_cons, hxy]
    simp [npMedian, hsort, List.getD]
  · have hsort : npSort [x, x, x, x, y] = [y, x, x, x, x] := by
      refine npSort_eq_of_sorted _ _ ?_ ?_
      · exact @List.perm_append_comm ℝ [x, x, x, x] [y]
      · simp [List.sorted_cons, hyx]
    simp [npMedian, hsort, List.getD]

theorem l2normDiff_self (s : List ℝ) : l2normDiff s s = 0 := by
  unfold l2normDiff
  rw [List.zipWith_same]
  have hz : s.map (fun a => (a - a) ^ 2) = s.map (fun _ => (0 : ℝ)) :=
    List.map_congr_left (fun a _ => by ring)
  rw [hz]
  simp

/-- Four bit-identical sources plus one arbitrary source of the same length:
with method 'median' the robust center is the common source, the median
distance is 0, tau is 0, and the uniform fallback yields weight exactly 1/5
for every source, including the outlier. -/
theorem fit_four_identical (α : ℝ) (s u : List ℝ) (hT : 2 ≤ s.length)
    (hu : u.length = s.length) :
    ∃ fused, AdaptiveSpectralKernel.fit ⟨α, Method.median⟩ [s, s, s, s, u]
      = Except.ok (fused, List.replicate 5 (1 / (5 : ℝ))) := by
  have hv : batchValid [s, s, s, s, u] := by
    refine ⟨by norm_num, by simpa [nSamples] using hT, ?_⟩
    intro x hx
    fin_cases hx <;> simp [nSamples, hu]
  have hcol : ∀ t, npMedian (column [s, s, s, s, u] t) = s.getD t 0 := by
    intro t
    have : column [s, s, s, s, u] t
        = [s.getD t 0, s.getD t 0, s.getD t 0, s.getD t 0, u.getD t 0] := by
      simp [column]
    rw [this]
    exact npMedian_four_one _ _
  have hcenter : robustCenter Method.median [s, s, s, s, u] = s := by
    show robustCenterMedian [s, s, s, s, u] = s
    unfold robustCenterMedian
    have hns : nSamples [s, s, s, s, u] = s.length := rfl
    rw [hns]
    calc (List.range s.length).map (fun t => npMedian (column [s, s, s, s, u] t))
        = (List.range s.length).map (fun t => s.getD t 0) :=
          List.map_congr_left (fun t _ => hcol t)
      _ = s := range_map_getD_real s
  have hdist : computeDistances [s, s, s, s, u] s = [0, 0, 0, 0, l2normDiff u s] := by
    simp [computeDistances, l2normDiff_self]
  have hmed : npMedian [(0 : ℝ), 0, 0, 0, l2normDiff u s] = 0 := by
    refine npMedian_eq_zero_of_majority _ ?_ [0, 0, 0, 0] [l2normDiff u s] ?_ ?_ ?_
    · intro x hx
      fin_cases hx <;> first | rfl | exact Real.sqrt_nonneg _
    · exact List.Perm.refl _
    · intro x hx
      fin_cases hx <;> rfl
    · norm_num
  have htau : batchTau α Method.median [s, s, s, s, u] = 0 := by
    unfold batchTau
    rw [hcenter, hdist, hmed, mul_zero]
  have hW : computeWeights (computeDistances [s, s, s, s, u]
        (robustCenter Method.median [s, s, s, s, u]))
        (batchTau α Method.median [s, s, s, s, u]) = List.replicate 5 (1 / (5 : ℝ)) := by
    rw [hcenter, hdist, htau]
    unfold computeWeights
    rw [if_pos rfl]
    norm_num
  rw [fit_ok ⟨α, Method.median⟩ [s, s, s, s, u] hv]
  rw [hW]
  exact ⟨_, rfl⟩

/-- C3 counterexample: on 4 bit-identical sources and 1 source offset by the
large constant 10, the offset source's weight is exactly 1/5 = 0.2, not at
most 0.01 (and the others carry 0.2 each, not 0.2475): the median distance
is 0, so the uniform fallback fires. -/
theorem C3_counterexample :
    (AdaptiveSpectralKernel.fit ⟨3 / 2, Method.median⟩
        [[(0 : ℝ), 0], [0, 0], [0, 0], [0, 0], [10, 10]]).map (fun p => p.2.getD 4 0)
      = Except.ok (1 / 5) ∧ ¬ ((1 / 5 : ℝ) ≤ 1 / 100) := by
  constructor
  · obtain ⟨f, hf⟩ :=
      fit_four_identical (3 / 2) [(0 : ℝ), 0] [10, 10] (by norm_num) (by norm_num)
    rw [hf]
    show Except.ok ((List.replicate 5 (1 / (5 : ℝ))).getD 4 0) = Except.ok (1 / 5)
    rw [getD_replicate_real 5 _ 4 (by norm_num)]
  · norm_num

/-- C3 amended: for every batch of 4 bit-identical sources and 1 further
equal-length source, `fit` with method 'median' returns exactly uniform
weights 1/5 per source: the median of the distance vector [0,0,0,0,d] is 0,
so tau = 0 and the uniform fallback fires regardless of the offset. -/
theorem C3_amended_uniform_fallback (α : ℝ) (s u : List ℝ) (hT : 2 ≤ s.length)
    (hu : u.length = s.length) :
    ∃ fused, AdaptiveSpectralKernel.fit ⟨α, Method.median⟩ [s, s, s, s, u]
      = Except.ok (fused, List.replicate 5 (1 / (5 : ℝ))) :=
  fit_four_identical α s u hT hu

/-- Witness for the amended C3 at the concrete offset batch. -/
theorem C3_amended_uniform_fallback_witness :
    ∃ fused, AdaptiveSpectralKernel.fit ⟨3 / 2, Method.median⟩
        [[(0 : ℝ), 0], [0, 0], [0, 0], [0, 0], [10, 10]]
      = Except.ok (fused, List.replicate 5 (1 / (5 : ℝ))) :=
  C3_amended_uniform_fallback (3 / 2) [(0 : ℝ), 0] [10, 10] (by norm_num) (by norm_num)

/-- C10 amended: whenever the nonneg distance vector has median zero — which
occurs whenever STRICTLY MORE than half of its entries are zero — both
engines' `_compute_weights` receive tau = 0 and take the guarded uniform
branch, never executing the division. -/
theorem C10_amended_zero_median_uniform (α : ℝ) (d : List ℝ) (hnn : ∀ x ∈ d, 0 ≤ x)
    (z r : List ℝ) (hperm : List.Perm d (z ++ r)) (hz : ∀ x ∈ z, x = 0)
    (hmaj : d.length < 2 * z.length) :
    npMedian d = 0 ∧
    computeWeights d (α * npMedian d) = List.replicate d.length (1 / (d.length : ℝ)) ∧
    computeWeightsTemporal d (α * npMedian (d.map Real.sqrt))
      = List.replicate d.length (1 / (d.length : ℝ)) := by
  have hmed := npMedian_eq_zero_of_majority d hnn z r hperm hz hmaj
  refine ⟨hmed, ?_, ?_⟩
  · unfold computeWeights
    rw [hmed, mul_zero, if_pos rfl]
  · have hms := npMedian_sqrt_eq_zero d hnn hmed
    unfold computeWeightsTemporal
    rw [hms, mul_zero, if_pos rfl]

/-- Witness for the amended C10 on the concrete distance vector [0,0,5]. -/
theorem C10_amended_zero_median_uniform_witness :
    npMedian [(0 : ℝ), 0, 5] = 0 ∧
    computeWeights [(0 : ℝ), 0, 5] (1 * npMedian [(0 : ℝ), 0, 5])
      = List.replicate ([(0 : ℝ), 0, 5] : List ℝ).length (1 / (([(0 : ℝ), 0, 5] : List ℝ).length : ℝ)) ∧
    computeWeightsTemporal [(0 : ℝ), 0, 5] (1 * npMedian (([(0 : ℝ), 0, 5] : List ℝ).map Real.sqrt))
      = List.replicate ([(0 : ℝ), 0, 5] : List ℝ).length (1 / (([(0 : ℝ), 0, 5] : List ℝ).length : ℝ)) :=
  C10_amended_zero_median_uniform 1 [(0 : ℝ), 0, 5]
    (by intro x hx; fin_cases hx <;> norm_num) [0, 0] [5]
    (List.Perm.refl _) (by intro x hx; fin_cases hx <;> rfl) (by norm_num)

/-- C10 counterexample: with 4 sources of which exactly half (2) coincide
bit-for-bit with the robust center, the median distance — the average of 0
and √2 — is positive, so tau = alpha * median(distances) is NOT zero and the
guarded branch is not taken: the claim's "at least half" characterization
fails for even source counts. -/
theorem C10_counterexample :
    robustCenter Method.median [[(0 : ℝ), 0], [0, 0], [-1, -1], [1, 1]] = [0, 0] ∧
    2 * 2 ≥ ([[(0 : ℝ), 0], [0, 0], [-1, -1], [1, 1]] : List (List ℝ)).length ∧
    batchTau (3 / 2) Method.median [[(0 : ℝ), 0], [0, 0], [-1, -1], [1, 1]] ≠ 0 := by
  have hsort0 : npSort [(0 : ℝ), 0, -1, 1] = [-1, 0, 0, 1] := by
    norm_num [npSort, List.insertionSort, List.orderedInsert]
  have hmedcol : npMedian [(0 : ℝ), 0, -1, 1] = 0 := by
    simp [npMedian, hsort0, List.getD]
  have hcol0 : column [[(0 : ℝ), 0], [0, 0], [-1, -1], [1, 1]] 0 = [0, 0, -1, 1] := by
    simp [column, List.getD]
  have hcol1 : column [[(0 : ℝ), 0], [0, 0], [-1, -1], [1, 1]] 1 = [0, 0, -1, 1] := by
    simp [column, List.getD]
  have hcenter : robustCenter Method.median [[(0 : ℝ), 0], [0, 0], [-1, -1], [1, 1]] = [0, 0] := by
    show robustCenterMedian [[(0 : ℝ), 0], [0, 0], [-1, -1], [1, 1]] = [0, 0]
    have hrange : List.range (nSamples [[(0 : ℝ), 0], [0, 0], [-1, -1], [1, 1]]) = [0, 1] := by
      show List.range 2 = [0, 1]
      simp [List.range_succ]
    unfold robustCenterMedian
    rw [hrange]
    simp [hcol0, hcol1, hmedcol]
  refine ⟨hcenter, by norm_num, ?_⟩
  have hd2 : l2normDiff [(-1 : ℝ), -1] [0, 0] = Real.sqrt 2 := by
    unfold l2normDiff
    norm_num
  have hd3 : l2normDiff [(1 : ℝ), 1] [0, 0] = Real.sqrt 2 := by
    unfold l2normDiff
    norm_num
  have hd0 : l2normDiff [(0 : ℝ), 0] [0, 0] = 0 := l2normDiff_self _
  have hdist : computeDistances [[(0 : ℝ), 0], [0, 0], [-1, -1], [1, 1]] [0, 0]
      = [0, 0, Real.sqrt 2, Real.sqrt 2] := by
    simp [computeDistances, hd0, hd2, hd3]
  have hsqrt2pos : 0 < Real.sqrt 2 := Real.sqrt_pos.mpr (by norm_num)
  have hsortd : npSort [(0 : ℝ), 0, Real.sqrt 2, Real.sqrt 2]
      = [0, 0, Real.sqrt 2, Real.sqrt 2] := by
    refine npSort_eq_of_sorted _ _ (List.Perm.refl _) ?_
    simp [List.sorted_cons, le_of_lt hsqrt2pos]
  have hmedd : npMedian [(0 : ℝ), 0, Real.sqrt 2, Real.sqrt 2] = Real.sqrt 2 / 2 := by
    simp [npMedian, hsortd, List.getD]
  unfold batchTau
  rw [hcenter, hdist, hmedd]
  positivity

theorem getD_replicate_any {α : Type} (d : α) (n : ℕ) (a : α) (i : ℕ) (h : i < n) :
    (List.replicate n a).getD i d = a := by
  rw [List.getD_eq_getElem _ _ (by simpa using h)]
  simp

theorem npSort_replicate (n : ℕ) (a : ℝ) : npSort (List.replicate n a) = List.replicate n a := by
  refine npSort_eq_of_sorted _ _ (List.Perm.refl _) ?_
  induction n with
  | zero => simp
  | succ k ih =>
    rw [List.replicate_succ, List.sorted_cons]
    refine ⟨fun b hb => ?_, ih⟩
    rw [List.eq_of_mem_replicate hb]

theorem trimmedMeanCol_replicate (n : ℕ) (hn : 0 < n) (a : ℝ) :
    trimmedMeanCol (List.replicate n a) = a := by
  unfold trimmedMeanCol
  rw [npSort_replicate]
  simp only [List.length_replicate]
  by_cases ht : 0 < n / 5
  · rw [if_pos ht]
    have hk : ((List.replicate n a).drop (n / 5)).take (n - 2 * (n / 5))
        = List.replicate (n - 2 * (n / 5)) a := by
      rw [List.drop_replicate, List.take_replicate]
      congr 1
      omega
    rw [hk]
    simp only [List.sum_replicate, List.length_replicate, nsmul_eq_mul]
    have hnz : ((n - 2 * (n / 5) : ℕ) : ℝ) ≠ 0 := by
      have : 0 < n - 2 * (n / 5) := by omega
      exact Nat.cast_ne_zero.mpr this.ne'
    field_simp
  · rw [if_neg ht]
    simp only [List.sum_replicate, List.length_replicate, nsmul_eq_mul]
    have hnz : ((n : ℕ) : ℝ) ≠ 0 := Nat.cast_ne_zero.mpr hn.ne'
    field_simp

theorem nSamples_replicate (N : ℕ) (hN : 0 < N) (s : List ℝ) :
    nSamples (List.replicate N s) = s.length := by
  cases N with
  | zero => omega
  | succ k => rfl

theorem robustCenter_replicate (m : Method) (N : ℕ) (hN : 0 < N) (s : List ℝ) :
    robustCenter m (List.replicate N s) = s := by
  have hcol : ∀ t, column (List.replicate N s) t = List.replicate N (s.getD t 0) := by
    intro t
    simp [column]
  cases m
  · show robustCenterMedian (List.replicate N s) = s
    unfold robustCenterMedian
    rw [nSamples_replicate N hN s]
    calc (List.range s.length).map (fun t => npMedian (column (List.replicate N s) t))
        = (List.range s.length).map (fun t => s.getD t 0) :=
          List.map_congr_left (fun t _ => by rw [hcol t, npMedian_replicate N hN])
      _ = s := range_map_getD_real s
  · show robustCenterTrimmed (List.replicate N s) = s
    unfold robustCenterTrimmed
    rw [nSamples_replicate N hN s]
    calc (List.range s.length).map (fun t => trimmedMeanCol (column (List.replicate N s) t))
        = (List.range s.length).map (fun t => s.getD t 0) :=
          List.map_congr_left (fun t _ => by rw [hcol t, trimmedMeanCol_replicate N hN])
      _ = s := range_map_getD_real s

theorem weightedAverage_replicate (N : ℕ) (hN : 0 < N) (S : List ℂ) :
    weightedAverage (List.replicate N S) (List.replicate N (1 / (N : ℝ))) = S := by
  have hhead : (List.replicate N S).headD [] = S := by
    cases N with
    | zero => omega
    | succ k => rfl
  have hsum : (List.replicate N (1 / (N : ℝ))).sum = 1 := uniform_sum N hN
  have hNc : ((N : ℕ) : ℂ) ≠ 0 := Nat.cast_ne_zero.mpr hN.ne'
  have hfun : ∀ k, (∑ i ∈ Finset.range N,
        (((List.replicate N (1 / (N : ℝ))).getD i 0 : ℝ) : ℂ)
          * ((List.replicate N S).getD i []).getD k 0) / ((1 : ℝ) : ℂ) = S.getD k 0 := by
    intro k
    have hterm : ∀ i ∈ Finset.range N,
        (((List.replicate N (1 / (N : ℝ))).getD i 0 : ℝ) : ℂ)
          * ((List.replicate N S).getD i []).getD k 0
        = (1 / (N : ℂ)) * S.getD k 0 := by
      intro i hi
      have hiN := Finset.mem_range.mp hi
      rw [getD_replicate_real N _ i hiN, getD_replicate_any [] N S i hiN]
      push_cast
      ring
    rw [Finset.sum_congr rfl hterm, Finset.sum_const, Finset.card_range]
    push_cast
    field_simp
  unfold weightedAverage
  rw [hhead]
  simp only [List.length_replicate, hsum]
  calc (List.range S.length).map (fun k => (∑ i ∈ Finset.range N,
        (((List.replicate N (1 / (N : ℝ))).getD i 0 : ℝ) : ℂ)
          * ((List.replicate N S).getD i []).getD k 0) / ((1 : ℝ) : ℂ))
      = (List.range S.length).map (fun k => S.getD k 0) :=
        List.map_congr_left (fun k _ => hfun k)
    _ = S := range_map_getD_complex S

theorem fftFusion_replicate (N : ℕ) (hN : 0 < N) (s : List ℝ) :
    fftFusion (List.replicate N s) (List.replicate N (1 / (N : ℝ))) = s := by
  unfold fftFusion
  rw [List.map_replicate, weightedAverage_replicate N hN, idft_dft]
  rw [List.map_map]
  calc s.map (Complex.re ∘ Complex.ofReal)
      = s.map id := List.map_congr_left (fun a _ => Complex.ofReal_re a)
    _ = s := List.map_id s

/-- C5: on a batch of N bit-identical sources, `fit` (either method) returns
exactly uniform weights 1/N and the fused series equals the common source
exactly: the weighted average of identical spectra is that spectrum, and the
inverse DFT of the DFT is the identity in exact arithmetic. -/
theorem C5_identical_sources (α : ℝ) (m : Method) (N : ℕ) (s : List ℝ)
    (hN : 2 ≤ N) (hT : 2 ≤ s.length) :
    AdaptiveSpectralKernel.fit ⟨α, m⟩ (List.replicate N s)
      = Except.ok (s, List.replicate N (1 / (N : ℝ))) := by
  have hN0 : 0 < N := by omega
  have hv : batchValid (List.replicate N s) := by
    refine ⟨by simpa using hN, ?_, ?_⟩
    · rw [nSamples_replicate N hN0 s]
      exact hT
    · intro x hx
      rw [List.eq_of_mem_replicate hx, nSamples_replicate N hN0 s]
  have hdist : computeDistances (List.replicate N s) s = List.replicate N 0 := by
    unfold computeDistances
    rw [List.map_replicate, l2normDiff_self]
  have htau : batchTau α m (List.replicate N s) = 0 := by
    unfold batchTau
    rw [robustCenter_replicate m N hN0, hdist, npMedian_replicate N hN0 0, mul_zero]
  have hW : computeWeights (computeDistances (List.replicate N s)
        (robustCenter m (List.replicate N s))) (batchTau α m (List.replicate N s))
      = List.replicate N (1 / (N : ℝ)) := by
    rw [robustCenter_replicate m N hN0, hdist, htau]
    unfold computeWeights
    rw [if_pos rfl]
    simp
  rw [fit_ok ⟨α, m⟩ _ hv]
  dsimp only
  rw [hW, fftFusion_replicate N hN0 s]

/-- Witness for C5 at two identical concrete sources. -/
theorem C5_identical_sources_witness :
    AdaptiveSpectralKernel.fit ⟨3 / 2, Method.median⟩ (List.replicate 2 [(1 : ℝ), 2])
      = Except.ok ([(1 : ℝ), 2], List.replicate 2 (1 / ((2 : ℕ) : ℝ))) :=
  C5_identical_sources (3 / 2) Method.median 2 [(1 : ℝ), 2] (by norm_num) (by norm_num)

theorem temporalDistances_none (lam : ℝ) (sig : List (List ℝ)) (center : List ℝ) :
    temporalDistances lam sig center none
      = (sig.map (fun s => l2normDiff s center)).map (fun x => x ^ 2) := by
  unfold temporalDistances
  rw [List.zipWith_map, List.zipWith_same, List.map_map]
  refine List.map_congr_left (fun s _ => ?_)
  show l2normDiff s center ^ 2 + lam * 0 ^ 2 = (l2normDiff s center) ^ 2
  ring

theorem computeWeightsTemporal_sq (spatial : List ℝ) (τ : ℝ) :
    computeWeightsTemporal (spatial.map (fun x => x ^ 2)) τ = computeWeights spatial τ := by
  unfold computeWeightsTemporal computeWeights
  by_cases h : τ = 0
  · rw [if_pos h, if_pos h]
    simp
  · have hlist : (spatial.map (fun x => x ^ 2)).map (fun d => Real.exp (-d / (2 * τ ^ 2)))
        = spatial.map (fun d => Real.exp (-(d ^ 2) / (2 * τ ^ 2))) := by
      rw [List.map_map]
      rfl
    rw [if_neg h, if_neg h]
    show ((spatial.map (fun x => x ^ 2)).map (fun d => Real.exp (-d / (2 * τ ^ 2)))).map
        (fun x => x / ((spatial.map (fun x => x ^ 2)).map
          (fun d => Real.exp (-d / (2 * τ ^ 2)))).sum)
      = (spatial.map (fun d => Real.exp (-(d ^ 2) / (2 * τ ^ 2)))).map
        (fun x => x / (spatial.map (fun d => Real.exp (-(d ^ 2) / (2 * τ ^ 2)))).sum)
    rw [hlist]

/-- C9: the very first `update` of a freshly constructed (or just-reset)
temporal kernel returns exactly the same (fused series, weights) pair as a
batch `fit` with the same alpha and method: with no prior state, the jitter
is zero, the temporal center is the batch robust center, the distances are
the squared batch distances, `sqrt` undoes the squaring inside the median,
and the temporal Gaussian (which omits the extra squaring) coincides with
the batch Gaussian. -/
theorem C9_first_update_refines_fit (α β lj dt : ℝ) (m : Method) (sig : List (List ℝ))
    (hα : 0 < α) (hv : batchValid sig) :
    Except.map (fun p => p.2) ((TemporalAdaptiveKernel.init α β lj m dt).update sig)
      = AdaptiveSpectralKernel.fit ⟨α, m⟩ sig := by
  obtain ⟨σ', fused, w, hupd, hw, _, _, hf⟩ :=
    update_ok (TemporalAdaptiveKernel.init α β lj m dt) sig hv.2.2 hv.1
  rw [hupd, fit_ok ⟨α, m⟩ sig hv]
  show Except.ok (fused, w) = _
  dsimp only at hw ⊢
  have hcen : temporalCenter β m sig none = robustCenter m sig := rfl
  have hspatial : computeDistances sig (robustCenter m sig)
      = sig.map (fun s => l2normDiff s (robustCenter m sig)) := rfl
  have hsqrt : ((sig.map (fun s => l2normDiff s (robustCenter m sig))).map
      (fun x => x ^ 2)).map Real.sqrt
      = sig.map (fun s => l2normDiff s (robustCenter m sig)) := by
    rw [List.map_map]
    calc (sig.map (fun s => l2normDiff s (robustCenter m sig))).map
          (Real.sqrt ∘ fun x => x ^ 2)
        = (sig.map (fun s => l2normDiff s (robustCenter m sig))).map (fun x => x) := by
          refine List.map_congr_left (fun x hx => ?_)
          rcases List.mem_map.mp hx with ⟨s, _, rfl⟩
          exact Real.sqrt_sq (Real.sqrt_nonneg _)
      _ = sig.map (fun s => l2normDiff s (robustCenter m sig)) := List.map_id' _
  have hwB : w = computeWeights (computeDistances sig (robustCenter m sig))
      (batchTau α m sig) := by
    rw [hw]
    show computeWeightsTemporal (temporalDistances lj sig (temporalCenter β m sig none) none)
        (α * npMedian ((temporalDistances lj sig (temporalCenter β m sig none) none).map
          Real.sqrt)) = _
    rw [hcen, temporalDistances_none, hsqrt]
    rw [computeWeightsTemporal_sq]
    rfl
  rw [hf, hwB]

/-- Witness for C9 at a concrete valid batch. -/
theorem C9_first_update_refines_fit_witness :
    Except.map (fun p => p.2) ((TemporalAdaptiveKernel.init (3 / 2) 0.95 0.5 Method.median
        0.1).update [[(0 : ℝ), 1], [2, 3]])
      = AdaptiveSpectralKernel.fit ⟨3 / 2, Method.median⟩ [[(0 : ℝ), 1], [2, 3]] :=
  C9_first_update_refines_fit (3 / 2) 0.95 0.5 0.1 Method.median [[(0 : ℝ), 1], [2, 3]]
    (by norm_num)
    ⟨by norm_num, by norm_num [nSamples], by intro s hs; fin_cases hs <;> rfl⟩

theorem sum_map_mul_left (l : List ℝ) (a : ℝ) : (l.map (fun x => a * x)).sum = a * l.sum := by
  induction l with
  | nil => simp
  | cons x t ih => simp [ih, mul_add]

theorem reverse_slice (m : List ℝ) (t u : ℕ) (h : t + u ≤ m.length) :
    (m.reverse.drop t).take u = ((m.drop (m.length - t - u)).take u).reverse := by
  rw [List.drop_reverse, List.take_reverse]
  congr 1
  rw [List.length_take]
  have hmin : min (m.length - t) m.length = m.length - t := by omega
  rw [hmin, List.drop_take]
  congr 1
  omega

/-- The trimmed column mean commutes with scaling by an arbitrary constant
(for negative constants the sorted order reverses, but the symmetric trim
keeps the same multiset). -/
theorem trimmedMeanCol_scale (c : ℝ) (l : List ℝ) :
    trimmedMeanCol (l.map (fun x => c * x)) = c * trimmedMeanCol l := by
  unfold trimmedMeanCol
  simp only [List.length_map]
  have hslen : (npSort l).length = l.length := npSort_length l
  rcases le_total 0 c with hc | hc
  · rw [npSort_map_mono (fun x => c * x) (fun a b hab => mul_le_mul_of_nonneg_left hab hc)]
    by_cases ht : 0 < l.length / 5
    · rw [if_pos ht, if_pos ht]
      rw [← List.map_drop, ← List.map_take]
      rw [sum_map_mul_left, List.length_map]
      rw [mul_div_assoc]
    · rw [if_neg ht, if_neg ht]
      rw [sum_map_mul_left, List.length_map, mul_div_assoc]
  · rw [npSort_map_anti (fun x => c * x) (fun a b hab => mul_le_mul_of_nonpos_left hab hc)]
    have hmlen : ((npSort l).map (fun x => c * x)).length = l.length := by
      simp [hslen]
    by_cases ht : 0 < l.length / 5
    · rw [if_pos ht, if_pos ht]
      have harith : l.length / 5 + (l.length - 2 * (l.length / 5)) ≤
          ((npSort l).map (fun x => c * x)).length := by
        rw [hmlen]
        omega
      rw [reverse_slice _ _ _ harith, hmlen]
      have hidx : l.length - l.length / 5 - (l.length - 2 * (l.length / 5))
          = l.length / 5 := by
        have h25 : 2 * (l.length / 5) ≤ l.length := by omega
        omega
      rw [hidx, List.sum_reverse, List.length_reverse]
      rw [← List.map_drop, ← List.map_take]
      rw [sum_map_mul_left, List.length_map, mul_div_assoc]
    · rw [if_neg ht, if_neg ht]
      rw [List.sum_reverse, List.length_reverse]
      rw [sum_map_mul_left, List.length_map, mul_div_assoc]

theorem nSamples_scale (g : ℝ → ℝ) (sig : List (List ℝ)) :
    nSamples (sig.map (fun s => s.map g)) = nSamples sig := by
  cases sig with
  | nil => rfl
  | cons s t => simp [nSamples]

theorem column_scale (c : ℝ) (sig : List (List ℝ)) (t : ℕ) :
    column (sig.map (fun s => s.map (fun x => c * x))) t
      = (column sig t).map (fun x => c * x) := by
  unfold column
  rw [List.map_map, List.map_map]
  refine List.map_congr_left (fun s _ => ?_)
  show (s.map (fun x => c * x)).getD t 0 = c * s.getD t 0
  exact getD_map_zero (fun x => c * x) (by ring) s t

theorem robustCenter_scale (m : Method) (c : ℝ) (sig : List (List ℝ)) :
    robustCenter m (sig.map (fun s => s.map (fun x => c * x)))
      = (robustCenter m sig).map (fun x => c * x) := by
  cases m
  · show robustCenterMedian _ = (robustCenterMedian sig).map _
    unfold robustCenterMedian
    rw [nSamples_scale, List.map_map]
    refine List.map_congr_left (fun t _ => ?_)
    show npMedian (column (sig.map (fun s => s.map (fun x => c * x))) t)
        = c * npMedian (column sig t)
    rw [column_scale, npMedian_scale]
  · show robustCenterTrimmed _ = (robustCenterTrimmed sig).map _
    unfold robustCenterTrimmed
    rw [nSamples_scale, List.map_map]
    refine List.map_congr_left (fun t _ => ?_)
    show trimmedMeanCol (column (sig.map (fun s => s.map (fun x => c * x))) t)
        = c * trimmedMeanCol (column sig t)
    rw [column_scale, trimmedMeanCol_scale]

theorem l2normDiff_scale (c : ℝ) (x y : List ℝ) :
    l2normDiff (x.map (fun v => c * v)) (y.map (fun v => c * v)) = |c| * l2normDiff x y := by
  unfold l2normDiff
  have hz : List.zipWith (fun a b => (a - b) ^ 2) (x.map (fun v => c * v)) (y.map (fun v => c * v))
      = (List.zipWith (fun a b => (a - b) ^ 2) x y).map (fun z => c ^ 2 * z) := by
    induction x generalizing y with
    | nil => simp
    | cons a t ih =>
      cases y with
      | nil => simp
      | cons b u =>
        simp only [List.map_cons, List.zipWith_cons_cons, ih]
        congr 1
        ring
  rw [hz, sum_map_mul_left, Real.sqrt_mul (sq_nonneg c), Real.sqrt_sq_eq_abs]

theorem computeDistances_scale (c : ℝ) (sig : List (List ℝ)) (center : List ℝ) :
    computeDistances (sig.map (fun s => s.map (fun x => c * x)))
      (center.map (fun x => c * x))
      = (computeDistances sig center).map (fun x => |c| * x) := by
  unfold computeDistances
  rw [List.map_map, List.map_map]
  exact List.map_congr_left (fun s _ => l2normDiff_scale c s center)

theorem batchTau_scale (α c : ℝ) (m : Method) (sig : List (List ℝ)) :
    batchTau α m (sig.map (fun s => s.map (fun x => c * x))) = |c| * batchTau α m sig := by
  unfold batchTau
  rw [robustCenter_scale, computeDistances_scale, npMedian_scale]
  ring

theorem computeWeights_scale (c : ℝ) (hc : c ≠ 0) (d : List ℝ) (τ : ℝ) :
    computeWeights (d.map (fun x => |c| * x)) (|c| * τ) = computeWeights d τ := by
  unfold computeWeights
  have habs : |c| ≠ 0 := abs_ne_zero.mpr hc
  by_cases h : τ = 0
  · rw [h, mul_zero, if_pos rfl, if_pos rfl]
    simp
  · have h2 : ¬ (|c| * τ = 0) := by
      intro hh
      rcases mul_eq_zero.mp hh with h3 | h3
      exacts [habs h3, h h3]
    rw [if_neg h2, if_neg h]
    have hlist : (d.map (fun x => |c| * x)).map
        (fun x => Real.exp (-(x ^ 2) / (2 * (|c| * τ) ^ 2)))
        = d.map (fun x => Real.exp (-(x ^ 2) / (2 * τ ^ 2))) := by
      rw [List.map_map]
      refine List.map_congr_left (fun x _ => ?_)
      show Real.exp (-((|c| * x) ^ 2) / (2 * (|c| * τ) ^ 2)) = _
      congr 1
      rw [mul_pow, mul_pow, sq_abs]
      have hc2 : c ^ 2 ≠ 0 := pow_ne_zero _ hc
      field_simp
      ring
    rw [hlist]

theorem getD_map_listmap (g : ℂ → ℂ) (L : List (List ℂ)) (i : ℕ) :
    (L.map (fun l => l.map g)).getD i [] = (L.getD i []).map g := by
  by_cases h : i < L.length
  · rw [List.getD_eq_getElem _ _ (by simpa using h), List.getD_eq_getElem _ _ h]
    simp
  · rw [List.getD_eq_default _ _ (by simpa using not_lt.mp h),
      List.getD_eq_default _ _ (by simpa using not_lt.mp h)]
    rfl

theorem dft_map_mul (z : ℂ) (x : List ℂ) :
    dft (x.map (fun v => z * v)) = (dft x).map (fun v => z * v) := by
  unfold dft
  simp only [List.length_map, List.map_map]
  refine List.map_congr_left (fun k _ => ?_)
  show (∑ m ∈ Finset.range x.length, (x.map (fun v => z * v)).getD m 0
      * (dftRoot x.length)⁻¹ ^ (m * k))
    = z * ∑ m ∈ Finset.range x.length, x.getD m 0 * (dftRoot x.length)⁻¹ ^ (m * k)
  rw [Finset.mul_sum]
  refine Finset.sum_congr rfl (fun m _ => ?_)
  rw [getD_map_zero_complex (fun v => z * v) (by ring) x m]
  ring

theorem idft_map_mul (z : ℂ) (X : List ℂ) :
    idft (X.map (fun v => z * v)) = (idft X).map (fun v => z * v) := by
  unfold idft
  simp only [List.length_map, List.map_map]
  refine List.map_congr_left (fun j _ => ?_)
  show (∑ k ∈ Finset.range X.length, (X.map (fun v => z * v)).getD k 0
      * dftRoot X.length ^ (j * k)) / (X.length : ℂ)
    = z * ((∑ k ∈ Finset.range X.length, X.getD k 0 * dftRoot X.length ^ (j * k))
      / (X.length : ℂ))
  rw [← mul_div_assoc, Finset.mul_sum]
  congr 1
  refine Finset.sum_congr rfl (fun m _ => ?_)
  rw [getD_map_zero_complex (fun v => z * v) (by ring) X m]
  ring

theorem weightedAverage_map_mul (z : ℂ) (spectra : List (List ℂ)) (w : List ℝ)
    (hne : spectra ≠ []) :
    weightedAverage (spectra.map (fun S => S.map (fun v => z * v))) w
      = (weightedAverage spectra w).map (fun v => z * v) := by
  unfold weightedAverage
  have hhead : (spectra.map (fun S => S.map (fun v => z * v))).headD []
      = (spectra.headD []).map (fun v => z * v) := by
    cases spectra with
    | nil => exact absurd rfl hne
    | cons a t => rfl
  rw [hhead]
  simp only [List.length_map, List.map_map]
  refine List.map_congr_left (fun k _ => ?_)
  show (∑ i ∈ Finset.range spectra.length, ((w.getD i 0 : ℝ) : ℂ)
      * ((spectra.map (fun S => S.map (fun v => z * v))).getD i []).getD k 0)
        / ((w.sum : ℝ) : ℂ)
    = z * ((∑ i ∈ Finset.range spectra.length, ((w.getD i 0 : ℝ) : ℂ)
      * (spectra.getD i []).getD k 0) / ((w.sum : ℝ) : ℂ))
  rw [← mul_div_assoc, Finset.mul_sum]
  congr 1
  refine Finset.sum_congr rfl (fun i _ => ?_)
  rw [getD_map_listmap (fun v => z * v) spectra i,
    getD_map_zero_complex (fun v => z * v) (by ring)]
  ring

theorem fftFusion_scale (c : ℝ) (sig : List (List ℝ)) (w : List ℝ) (hne : sig ≠ []) :
    fftFusion (sig.map (fun s => s.map (fun x => c * x))) w
      = (fftFusion sig w).map (fun x => c * x) := by
  unfold fftFusion
  have hspec : (sig.map (fun s => s.map (fun x => c * x))).map
        (fun s => dft (s.map Complex.ofReal))
      = (sig.map (fun s => dft (s.map Complex.ofReal))).map
        (fun S => S.map (fun v => (c : ℂ) * v)) := by
    rw [List.map_map, List.map_map]
    refine List.map_congr_left (fun s _ => ?_)
    show dft ((s.map (fun x => c * x)).map Complex.ofReal)
        = (dft (s.map Complex.ofReal)).map (fun v => (c : ℂ) * v)
    have hrow : (s.map (fun x => c * x)).map Complex.ofReal
        = (s.map Complex.ofReal).map (fun v => (c : ℂ) * v) := by
      rw [List.map_map, List.map_map]
      refine List.map_congr_left (fun x _ => ?_)
      show ((c * x : ℝ) : ℂ) = (c : ℂ) * (x : ℂ)
      push_cast
      rfl
    rw [hrow, dft_map_mul]
  rw [hspec]
  have hspecne : sig.map (fun s => dft (s.map Complex.ofReal)) ≠ [] := by
    simpa using hne
  rw [weightedAverage_map_mul _ _ w hspecne, idft_map_mul, List.map_map, List.map_map]
  refine List.map_congr_left (fun v _ => ?_)
  show ((c : ℂ) * v).re = c * v.re
  simp

/-- C6: multiplying every sample of every source by the same nonzero
constant leaves the returned weight vector unchanged (distances and tau both
scale by |c|, cancelling inside the Gaussian exponent, and the tau = 0 guard
is preserved), while the fused series is multiplied by the constant. -/
theorem C6_scale_invariance (k : AdaptiveSpectralKernel) (c : ℝ) (sig : List (List ℝ))
    (hc : c ≠ 0) (hv : batchValid sig) :
    k.fit (sig.map (fun s => s.map (fun x => c * x)))
      = Except.map (fun p => (p.1.map (fun x => c * x), p.2)) (k.fit sig) := by
  have hv2 : batchValid (sig.map (fun s => s.map (fun x => c * x))) := by
    refine ⟨by simpa using hv.1, ?_, ?_⟩
    · rw [nSamples_scale]
      exact hv.2.1
    · intro x hx
      rcases List.mem_map.mp hx with ⟨s, hs, rfl⟩
      rw [nSamples_scale]
      simpa using hv.2.2 s hs
  have hne : sig ≠ [] := by
    intro h
    rw [h] at hv
    exact absurd hv.1 (by norm_num)
  rw [fit_ok k sig hv, fit_ok k _ hv2]
  have hW : computeWeights (computeDistances (sig.map (fun s => s.map (fun x => c * x)))
        (robustCenter k.method (sig.map (fun s => s.map (fun x => c * x)))))
        (batchTau k.alpha k.method (sig.map (fun s => s.map (fun x => c * x))))
      = computeWeights (computeDistances sig (robustCenter k.method sig))
        (batchTau k.alpha k.method sig) := by
    rw [robustCenter_scale, computeDistances_scale, batchTau_scale]
    exact computeWeights_scale c hc _ _
  rw [hW, fftFusion_scale c sig _ hne]
  rfl

/-- Witness for C6 at a concrete batch and the constant 2. -/
theorem C6_scale_invariance_witness :
    AdaptiveSpectralKernel.fit ⟨3 / 2, Method.median⟩
        (([[(1 : ℝ), 2], [3, 4]] : List (List ℝ)).map (fun s => s.map (fun x => 2 * x)))
      = Except.map (fun p => (p.1.map (fun x => 2 * x), p.2))
        (AdaptiveSpectralKernel.fit ⟨3 / 2, Method.median⟩ [[(1 : ℝ), 2], [3, 4]]) :=
  C6_scale_invariance ⟨3 / 2, Method.median⟩ 2 [[(1 : ℝ), 2], [3, 4]] (by norm_num)
    ⟨by norm_num, by norm_num [nSamples], by intro s hs; fin_cases hs <;> rfl⟩
